import Mathlib

/-!
Verification of the multi-unit container subsystem of the DRAGONS `astrodata`
package (`astrodata/fits.py`) against its natural-language specification.

The Python code is shallowly embedded: headers become association lists,
numpy arrays become shape-indexed total functions, exceptions become `Except`,
and the mutable provider object becomes explicit state passing.  Every
definition is transcribed from the source file; the one exception is
`serialize_layout`, a spec-side description of the serializer's output order
used for a refinement comparison, and the small models of external
`astropy` behaviour (`dtype_for_bitpix`, the NDData arithmetic mixin), which
are transcribed from the external library that the source delegates to.
-/

set_option autoImplicit false

namespace AstrodataFits

/-- Decidable equality for `Except` results, used to evaluate the concrete
counterexamples and witnesses below. -/
instance {ε α : Type} [DecidableEq ε] [DecidableEq α] : DecidableEq (Except ε α) :=
  fun x y =>
    match x, y with
    | .ok a, .ok b =>
      if h : a = b then .isTrue (by rw [h])
      else .isFalse (fun hh => by cases hh; exact h rfl)
    | .error a, .error b =>
      if h : a = b then .isTrue (by rw [h])
      else .isFalse (fun hh => by cases hh; exact h rfl)
    | .ok _, .error _ => .isFalse (fun hh => by cases hh)
    | .error _, .ok _ => .isFalse (fun hh => by cases hh)

/-! ### C1: selectors and `normalize_indices` (fits.py lines 329-348) -/

/-- A slice argument accepted by `normalize_indices`: an integer, a tuple of
integers, or a Python `slice(start, stop, step)` object (each part optional). -/
inductive Selector where
  | int (i : Int)
  | tup (xs : List Int)
  | slc (start stop step : Option Int)

/-- Clamp `v` into the interval `[lower, upper]`;
part of Python `slice.indices`. -/
def clampIdx (lower upper v : Int) : Int :=
  if v < lower then lower else if upper < v then upper else v

/-- The step of a slice object, defaulting to 1. -/
def sliceStep (ostep : Option Int) : Int := ostep.getD 1

/-- Resolve one endpoint of a slice object: the default when absent, else the
value with the length added when negative, clamped into `[lower, upper]`. -/
def sliceBound (ov : Option Int) (dflt lower upper : Int) (nitems : Nat) : Int :=
  match ov with
  | none => dflt
  | some v => clampIdx lower upper (if v < 0 then v + (nitems : Int) else v)

/-- Python `slice.indices(nitems)`: resolves the optional start/stop/step of a
slice object against a length, adding the length to negative endpoints and
clamping.  Returns `none` exactly when the step is zero (Python raises
`ValueError` there). -/
def sliceIndices (ostart ostop ostep : Option Int) (nitems : Nat) :
    Option (Int × Int × Int) :=
  if ostep = some 0 then none
  else
    let step := sliceStep ostep
    let lower : Int := if step < 0 then -1 else 0
    let upper : Int := if step < 0 then (nitems : Int) - 1 else (nitems : Int)
    some (sliceBound ostart (if step < 0 then upper else lower) lower upper nitems,
          sliceBound ostop (if step < 0 then lower else upper) lower upper nitems,
          step)

/-- Number of elements of Python `range(start, stop, step)` for `step ≠ 0`. -/
def rangeLen (start stop step : Int) : Nat :=
  if 0 < step then
    if stop ≤ start then 0 else (stop - start - 1).toNat / step.toNat + 1
  else
    if start ≤ stop then 0 else (start - stop - 1).toNat / (-step).toNat + 1

/-- The elements of Python `range(start, stop, step)` for `step ≠ 0`. -/
def rangeList (start stop step : Int) : List Int :=
  (List.range (rangeLen start stop step)).map
    (fun (k : Nat) => start + step * (k : Int))

/-- `(x if x >= 0 else nitems + x)` from `normalize_indices`. -/
def resolveIdx (nitems : Nat) (x : Int) : Int :=
  if 0 ≤ x then x else (nitems : Int) + x

/-- `normalize_indices(slc, nitems)` (fits.py lines 329-348): turns a selector
into an index list plus the `multiple` flag, raising `IndexError` when a
resolved index is `>= nitems`. -/
def normalize_indices (slc : Selector) (nitems : Nat) :
    Except String (List Int × Bool) :=
  let step1 : Except String (List Int × Bool) :=
    match slc with
    | .slc a b c =>
      match sliceIndices a b c nitems with
      | none => .error "slice step cannot be zero"
      | some (s, e, st) => .ok (rangeList s e st, true)
    | .int i => .ok ([resolveIdx nitems i], false)
    | .tup xs => .ok (xs.map (resolveIdx nitems), true)
  match step1 with
  | .error msg => .error msg
  | .ok (indices, multiple) =>
    if indices.any (fun i => (nitems : Int) ≤ i) then .error "Index out of range"
    else .ok (indices, multiple)

/-- The sliced proxy as far as indexing is concerned: the index list the view
maps to, and the `single` flag (fits.py lines 357-365 and 895-905). -/
structure AdView where
  mapping : List Int
  single : Bool
deriving DecidableEq

/-- `FitsProvider.__getitem__` (fits.py lines 902-905): normalize the selector
and build a proxy with `single = not multiple`. -/
def provider_getitem (nitems : Nat) (slc : Selector) : Except String AdView :=
  match normalize_indices slc nitems with
  | .error msg => .error msg
  | .ok (indices, multiple) => .ok { mapping := indices, single := !multiple }

/-! ### C2: `FitsHeaderCollection` (fits.py lines 80-183) -/

/-- One FITS header, modelled as an ordered key/value association list
(values concretized to `Int`). -/
abbrev Hdr : Type := List (String × Int)

/-- `header[key]` as an option: first entry with the given key. -/
def lookupKey (h : Hdr) (key : String) : Option Int :=
  (h.find? (fun p => p.1 = key)).map (fun p => p.2)

/-- The enriched `KeyError` raised by `FitsHeaderCollection.__getitem__`:
it carries `missing_at` (indices of members lacking the key) and `values`
(the partial result list, `none` at missing positions). -/
structure GroupKeyError where
  missing_at : List Nat
  values : List (Option Int)
deriving DecidableEq

/-- The accumulation loop of `FitsHeaderCollection.__getitem__`
(fits.py lines 124-134): walk the headers from index `n`, recording values
and the indices where the key is missing. -/
def collectLoop : List Hdr → String → Nat → List (Option Int) × List Nat
  | [], _, _ => ([], [])
  | h :: t, key, n =>
    let rest := collectLoop t key (n + 1)
    match lookupKey h key with
    | some v => (some v :: rest.1, rest.2)
    | none => (none :: rest.1, n :: rest.2)

/-- `FitsHeaderCollection.__getitem__` (fits.py lines 124-141): group access
without a default; raises the enriched `KeyError` when any member lacks the
key. -/
def hdrcol_getitem (headers : List Hdr) (key : String) :
    Except GroupKeyError (List (Option Int)) :=
  let r := collectLoop headers key 0
  if r.2 = [] then .ok r.1 else .error ⟨r.2, r.1⟩

/-- `FitsHeaderCollection.get` (fits.py lines 143-150): catch the enriched
`KeyError` and patch the missing positions with the default. -/
def hdrcol_get (headers : List Hdr) (key : String) (default : Option Int) :
    List (Option Int) :=
  match hdrcol_getitem headers key with
  | .ok vs => vs
  | .error e => e.missing_at.foldl (fun vs n => vs.set n default) e.values

/-- Concrete three-member header collection in which exactly the middle
member lacks the key `A`. -/
def hdrsEx : List Hdr := [[("A", 1)], [("B", 7)], [("A", 3)]]

/-! ### C3: `windowedOp.generate_boxes` and the tile loop
(fits.py lines 1658-1664 and 1690-1697) -/

/-- One axis of `generate_boxes`: `[(x, x+step) for x in range(0, axis, step)]`
for a positive step. -/
def ticks (axis step : Nat) : List (Nat × Nat) :=
  (List.range ((axis + step - 1) / step)).map (fun k => (k * step, k * step + step))

/-- `itertools.product`, leftmost factor varying slowest. -/
def cartProd {α : Type} : List (List α) → List (List α)
  | [] => [[]]
  | l :: ls => l.flatMap (fun x => (cartProd ls).map (fun b => x :: b))

/-- `windowedOp.generate_boxes(shape, kernel)` (fits.py lines 1658-1664):
the cartesian product of per-axis tick intervals; `AssertionError` when the
ranks differ. -/
def generate_boxes (shape kernel : List Nat) :
    Except String (List (List (Nat × Nat))) :=
  if shape.length ≠ kernel.length then
    .error "Incompatible shape and kernel"
  else
    .ok (cartProd (List.zipWith ticks shape kernel))

/-- Does pixel `p` fall inside box `b` once the box is clamped to the array
shape (numpy slices clamp their stop to the axis length)? -/
def inBoxB : List (Nat × Nat) → List Nat → List Nat → Bool
  | [], [], [] => true
  | b :: bs, a :: sh, q :: ps =>
    (decide (b.1 ≤ q) && decide (q < min b.2 a)) && inBoxB bs sh ps
  | _, _, _ => false

/-- Is `p` a valid pixel of an array of the given shape? -/
def validCellB : List Nat → List Nat → Bool
  | [], [] => true
  | a :: sh, q :: ps => decide (q < a) && validCellB sh ps
  | _, _ => false

/-- Per-axis tile counts multiplied together; the value
`countP (cartProd tss) (inBoxB . sh p)` factors into. -/
def countsProd : List (List (Nat × Nat)) → List Nat → List Nat → Nat
  | [], [], [] => 1
  | ts :: tss, a :: sh, q :: ps =>
    (ts.countP (fun b => decide (b.1 ≤ q) && decide (q < min b.2 a)))
      * countsProd tss sh ps
  | _, _, _ => 0

/-- The tile loop of `windowedOp` (fits.py lines 1690-1697) specialised to an
identity function on a single input: each box writes the input's sub-window
into the output region; represented as iterated function update. -/
def applyBoxes (shape : List Nat) (boxes : List (List (Nat × Nat)))
    (input : List Nat → Int) : List Nat → Int :=
  boxes.foldl
    (fun res box => fun p => if inBoxB box shape p then input p else res p)
    (fun _ => 0)

/-- The boxes generated for a 100×100 array with kernel (30, 30). -/
def boxes100 : List (List (Nat × Nat)) :=
  cartProd (List.zipWith ticks [100, 100] [30, 30])

/-! ### The container data model shared by C4-C10 -/

/-- A two-dimensional array: a shape plus a total function giving the pixel
values (reads outside the shape never occur in the properties proved). -/
structure Arr (α : Type) where
  rows : Nat
  cols : Nat
  val : Nat → Nat → α

/-- `a[y1:y2+1, x1:x2+1]` with numpy clamping semantics. -/
def sliceIncl {α : Type} (a : Arr α) (x1 y1 x2 y2 : Nat) : Arr α :=
  let r1 := min y1 a.rows
  let r2 := min (y2 + 1) a.rows
  let c1 := min x1 a.cols
  let c2 := min (x2 + 1) a.cols
  ⟨r2 - r1, c2 - c1, fun i j => a.val (r1 + i) (c1 + j)⟩

/-- Outcome of trying to express a gWCS object as FITS keywords
(`adwcs.gwcs_to_fits` in `to_hdulist`): representable exactly, representable
only approximately (the `APPROXIMATE` marker), or not at all
(`ValueError`/`NotImplementedError`). -/
inductive WcsKind where
  | fitsExact
  | approximate
  | unrepresentable
deriving DecidableEq

/-- A named side-car stored in `nd.meta['other']`: an `astropy.table.Table`,
a raw `np.ndarray`, or a nested `NDAstroData` object. -/
inductive OtherObj where
  | table (tname : Option String)
  | arr (a : Arr Int)
  | ndd (a : Arr Int)

/-- One data unit (one `NDAstroData` object in `FitsProvider._nddata`):
header name and version, primary array, optional variance and mask planes,
optional WCS, and the ordered side-car mapping. -/
structure NDUnit where
  extname : Option String
  ver : Int
  data : Arr Int
  uncertainty : Option (Arr Int)
  mask : Option (Arr Nat)
  wcs : Option WcsKind
  other : List (String × OtherObj)

/-- The top-level container (`FitsProvider`): primary header, ordered unit
list, top-level table registry, and path identity. -/
structure FitsProvider where
  phu : List (String × Int)
  nddata : List NDUnit
  tables : List (String × Nat)
  path : Option String
  orig_filename : Option String

/-- `FitsProvider.default_extension`. -/
def default_extension : String := "SCI"

/-! ### C4: cropping (fits.py lines 1169-1193) -/

/-- `FitsProvider._crop_nd` (fits.py lines 1169-1174) applied to a unit:
slice `data`, and `uncertainty`/`mask` when present, to the inclusive
rectangle. -/
def crop_nd (u : NDUnit) (x1 y1 x2 y2 : Nat) : NDUnit :=
  { u with
    data := sliceIncl u.data x1 y1 x2 y2
    uncertainty := u.uncertainty.map (fun a => sliceIncl a x1 y1 x2 y2)
    mask := u.mask.map (fun a => sliceIncl a x1 y1 x2 y2) }

/-- The side-car treatment inside `FitsProvider._crop_impl` for one entry.
A shape-matching nested `NDAstroData` side-car is cropped like the unit
itself.  A shape-matching raw `np.ndarray` side-car, however, makes
`_crop_nd` evaluate `o.data[y1:y2+1, x1:x2+1]` — and an ndarray's `.data`
attribute is a memoryview, whose two-dimensional slicing raises
`NotImplementedError`, which the surrounding `except AttributeError` of
`_crop_impl` does not catch: the exception escapes.  An entry without a
`.shape` attribute (a table) raises `AttributeError` at the shape check,
which the source swallows; an entry with a different shape is skipped.  Both
are left untouched. -/
def crop_other (origRows origCols x1 y1 x2 y2 : Nat) (p : String × OtherObj) :
    Except String (String × OtherObj) :=
  match p.2 with
  | .arr a =>
    if a.rows = origRows ∧ a.cols = origCols then
      .error "NotImplementedError: multi-dimensional sub-views are not implemented"
    else .ok p
  | .ndd a =>
    if a.rows = origRows ∧ a.cols = origCols then
      .ok (p.1, .ndd (sliceIncl a x1 y1 x2 y2))
    else .ok p
  | .table _ => .ok p

/-- The side-car loop of `FitsProvider._crop_impl`: entries are processed in
order and mutated in place, so when one raises, the earlier entries stay
cropped, the offending entry and the later ones stay untouched, and the
exception propagates (the second component). -/
def crop_others_loop (origRows origCols x1 y1 x2 y2 : Nat) :
    List (String × OtherObj) → List (String × OtherObj) × Option String
  | [] => ([], none)
  | p :: ps =>
    match crop_other origRows origCols x1 y1 x2 y2 p with
    | .ok p2 =>
      let rest := crop_others_loop origRows origCols x1 y1 x2 y2 ps
      (p2 :: rest.1, rest.2)
    | .error e => (p :: ps, some e)

/-- The per-unit body of `FitsProvider._crop_impl` (fits.py lines 1176-1190):
record the pre-crop shape of `data`, crop the unit's own planes, then walk
the side-cars.  The second component is the exception escaping the walk, if
any; the unit's own planes are already cropped by then. -/
def crop_impl_unit (u : NDUnit) (x1 y1 x2 y2 : Nat) : NDUnit × Option String :=
  let origRows := u.data.rows
  let origCols := u.data.cols
  let u2 := crop_nd u x1 y1 x2 y2
  let r := crop_others_loop origRows origCols x1 y1 x2 y2 u2.other
  ({ u2 with other := r.1 }, r.2)

/-- The unit loop of `FitsProvider._crop_impl`: an exception raised while
cropping one unit leaves the earlier units cropped and the later ones
untouched, and propagates. -/
def crop_units_loop (x1 y1 x2 y2 : Nat) :
    List NDUnit → List NDUnit × Option String
  | [] => ([], none)
  | u :: us =>
    let r := crop_impl_unit u x1 y1 x2 y2
    match r.2 with
    | some e => (r.1 :: us, some e)
    | none =>
      let rest := crop_units_loop x1 y1 x2 y2 us
      (r.1 :: rest.1, rest.2)

/-- `FitsProvider.crop` (fits.py lines 1192-1193): crop every unit in order,
with any escaping exception in the second component. -/
def provider_crop (c : FitsProvider) (x1 y1 x2 y2 : Nat) :
    FitsProvider × Option String :=
  let r := crop_units_loop x1 y1 x2 y2 c.nddata
  ({ c with nddata := r.1 }, r.2)

/-- Concrete unit: 100×100 data and uncertainty plus a full-size raw ndarray
side-car, the kind that `_append_array`/`_add_to_other` and `windowedOp`'s
side-car reassembly routinely store in `meta['other']`. -/
def unitArrEx : NDUnit :=
  { extname := some "SCI"
    ver := 1
    data := ⟨100, 100, fun i j => (i : Int) * 100 + (j : Int)⟩
    uncertainty := some ⟨100, 100, fun _ _ => 2⟩
    mask := none
    wcs := none
    other := [("BOB", .arr ⟨100, 100, fun _ _ => 5⟩)] }

/-! ### C5/C10: version assignment and top-level appends
(fits.py lines 937-964, 966-1001, 1268-1287) -/

/-- Python `max` over a list (`ValueError`, i.e. `none`, on the empty list). -/
def maxList : List Int → Option Int
  | [] => none
  | x :: xs =>
    match maxList xs with
    | none => some x
    | some m => some (max x m)

/-- `FitsProvider._get_max_ver` (fits.py lines 937-942): one more than the
maximum `ver` of the stored units, or 1 when there are none. -/
def get_max_ver (c : FitsProvider) : Int :=
  match maxList (c.nddata.map (fun nd => nd.ver)) with
  | none => 1
  | some m => m + 1

/-- `FitsProvider._reset_ver` (fits.py lines 944-964): stamp the unit (its
`EXTVER` header card and `meta['ver']`, both folded into the `ver` field
here) with the next free version.  The best-effort propagation into side-car
headers only touches headers, which the model does not store per side-car. -/
def reset_ver (c : FitsProvider) (nd : NDUnit) : NDUnit :=
  { nd with ver := get_max_ver c }

/-- `FitsProvider._process_pixel_plane` (fits.py lines 966-1001) on an
already-formed unit: install `name` as `EXTNAME` when the header has none,
and at top level reset the version when requested or when the header carries
no version (`EXTVER` defaulting to -1). -/
def process_pixel_plane (c : FitsProvider) (nd : NDUnit) (name : Option String)
    (top_level rv : Bool) : NDUnit :=
  let nd1 :=
    match name, nd.extname with
    | some nm, none => { nd with extname := some nm }
    | _, _ => nd
  if top_level then
    if rv || nd1.ver = -1 then reset_ver c nd1 else nd1
  else nd1

/-- `FitsProvider._append_nddata` (fits.py lines 1268-1287): a top-level
append of a formed unit.  Only a unit whose header name is absent or equal to
the default `SCI` label is accepted; the version is reset when requested and
the unit is appended; otherwise `ValueError` is raised before the unit list
is touched.  The pre-raise container is returned alongside the outcome. -/
def append_nddata (c : FitsProvider) (nd : NDUnit) (rv : Bool) :
    FitsProvider × Except String NDUnit :=
  let hname := nd.extname.getD default_extension
  if hname = default_extension then
    let nd2 := if rv then reset_ver c nd else nd
    ({ c with nddata := c.nddata ++ [nd2] }, .ok nd2)
  else
    (c, .error "Arbitrary image extensions can only be added in association to a SCI")

/-- `FitsProvider._append_raw_nddata` (fits.py lines 1258-1266) at top level:
process the pixel plane, then hand it to `_append_nddata` (which is called
with its default `reset_ver=True`). -/
def append_raw_nddata (c : FitsProvider) (nd : NDUnit) (name : Option String)
    (rv : Bool) : FitsProvider × Except String NDUnit :=
  append_nddata c (process_pixel_plane c nd name true rv) true

/-- The version numbers stored in a container, in position order. -/
def vers (c : FitsProvider) : List Int :=
  c.nddata.map (fun nd => nd.ver)

/-- An empty container. -/
def provider0 : FitsProvider :=
  { phu := [], nddata := [], tables := [], path := none, orig_filename := none }

/-- A dummy 1×1 array. -/
def arr0 : Arr Int := ⟨1, 1, fun _ _ => 0⟩

/-- A bare unit with the given name and version. -/
def mkUnit (nm : Option String) (v : Int) : NDUnit :=
  { extname := nm, ver := v, data := arr0, uncertainty := none, mask := none
    wcs := none, other := [] }

/-- A container holding two units with versions 1 and 3. -/
def provider13 : FitsProvider :=
  { provider0 with nddata := [mkUnit (some "SCI") 1, mkUnit (some "SCI") 3] }

/-! ### C6: serialization order, `to_hdulist` (fits.py lines 1065-1120) -/

/-- The identity of one emitted HDU (its kind and `EXTNAME`); the payloads do
not matter for the ordering claim. -/
inductive HDU where
  | primary
  | image (name : Option String)
  | bintable (name : Option String)
  | wcstable
deriving DecidableEq

/-- The WCS object still in hand after the `gwcs_to_fits` attempt in
`to_hdulist`: an exactly representable WCS is folded into the header and
dropped (`wcs = None`); an approximate or unrepresentable one is kept and
will be emitted as an extension. -/
def wcs_after_fits (u : NDUnit) : Option WcsKind :=
  match u.wcs with
  | some .fitsExact => none
  | w => w

/-- The HDU emitted for one side-car entry in `to_hdulist`
(fits.py lines 1106-1114): a table keeps the name of its own header; an
ndarray is emitted under its mapping name; a nested NDData object is emitted
with a copy of the unit's own header (hence the unit's name). -/
def sidecar_hdu (u : NDUnit) (p : String × OtherObj) : HDU :=
  match p.2 with
  | .table tn => .bintable tn
  | .arr _ => .image (some p.1)
  | .ndd _ => .image u.extname

/-- Lexicographic comparison of character lists (the order Python uses to
compare strings). -/
def charListLt : List Char → List Char → Bool
  | [], [] => false
  | [], _ :: _ => true
  | _ :: _, [] => false
  | a :: as2, b :: bs =>
    if a < b then true else if b < a then false else charListLt as2 bs

/-- String comparison by code point, as Python `sorted` uses on names. -/
def strLt (a b : String) : Bool := charListLt a.toList b.toList

/-- Insert a named entry into a name-sorted list (Python `sorted` on dict
items whose keys are unique). -/
def insertByName {α : Type} (p : String × α) : List (String × α) → List (String × α)
  | [] => [p]
  | q :: qs => if strLt p.1 q.1 then p :: q :: qs else q :: insertByName p qs

/-- Sort a name-keyed association list by name. -/
def sortByName {α : Type} : List (String × α) → List (String × α)
  | [] => []
  | p :: ps => insertByName p (sortByName ps)

/-- `FitsProvider.to_hdulist` (fits.py lines 1065-1120), tracking the emitted
HDU identities: the primary HDU, then for each unit in position order the
`SCI` image, the `VAR` image when an uncertainty is present, the `DQ` image
when a mask is present, a WCS extension when the WCS could not be folded
exactly into the header, then the side-cars in the order of the `other`
mapping; finally the top-level registry tables sorted by name. -/
def to_hdulist (c : FitsProvider) : List HDU :=
  [HDU.primary] ++
  (c.nddata.flatMap (fun u =>
    [HDU.image (some "SCI")] ++
    (match u.uncertainty with
     | some _ => [HDU.image (some "VAR")]
     | none => []) ++
    (match u.mask with
     | some _ => [HDU.image (some "DQ")]
     | none => []) ++
    (match wcs_after_fits u with
     | some _ => [HDU.wcstable]
     | none => []) ++
    u.other.map (fun p => sidecar_hdu u p))) ++
  (sortByName c.tables).map (fun p => HDU.bintable (some p.1))

/-- Spec-side layout of one unit's HDU block, following the specification's
words for the serializer (primary array, then uncertainty, then mask, then
the encoded transform when needed, then the side-cars). -/
def unit_block (u : NDUnit) : List HDU :=
  [HDU.image (some "SCI")] ++
  (if u.uncertainty.isSome then [HDU.image (some "VAR")] else []) ++
  (if u.mask.isSome then [HDU.image (some "DQ")] else []) ++
  (if (wcs_after_fits u).isSome then [HDU.wcstable] else []) ++
  u.other.map (fun p => sidecar_hdu u p)

/-- Spec-side serialization layout (amended: the per-unit side-cars keep the
`other` mapping's own insertion order, while the registry tables are sorted
by name): primary first, then the units' blocks in position order, then the
registry tables. -/
def serialize_layout (c : FitsProvider) : List HDU :=
  HDU.primary ::
    ((c.nddata.map unit_block).flatten ++
      (sortByName c.tables).map (fun p => HDU.bintable (some p.1)))

/-- A container whose single unit carries two ndarray side-cars inserted in
reverse alphabetical order. -/
def providerC6 : FitsProvider :=
  { provider0 with
    nddata := [{ mkUnit (some "SCI") 1 with
                 other := [("ZZZ", .arr arr0), ("AAA", .arr arr0)] }] }

/-! ### C7: `FitsLazyLoadable.dtype` (fits.py lines 1444-1464) -/

/-- The numpy dtypes that can come out of `FitsLazyLoadable.dtype`. -/
inductive Dtype where
  | int8 | int16 | int32 | int64
  | uint8 | uint16 | uint32 | uint64
  | float32 | float64
deriving DecidableEq

/-- `astropy.io.fits.BITPIX2DTYPE` (keys outside the table raise; modelled as
`none`, unreachable for well-formed FITS data). -/
def bitpix2dtype : Int → Option Dtype
  | 8 => some .uint8
  | 16 => some .int16
  | 32 => some .int32
  | 64 => some .int64
  | -32 => some .float32
  | -64 => some .float64
  | _ => none

/-- `astropy.io.fits` `_ImageBaseHDU._dtype_for_bitpix` (external library,
transcribed): the corrected dtype for scaled data, honouring the unsigned-int
convention (`BZERO = 2^(bits-1)` with unit `BSCALE`), else the float type
scaling produces, else `none`. -/
def dtype_for_bitpix (bitpix bscale bzero : Int) (uintFlag : Bool) : Option Dtype :=
  let uintRes : Option Dtype :=
    if uintFlag ∧ bscale = 1 then
      if bitpix = 8 ∧ bzero = -128 then some .int8
      else if bitpix = 16 ∧ bzero = 32768 then some .uint16
      else if bitpix = 32 ∧ bzero = 2147483648 then some .uint32
      else if bitpix = 64 ∧ bzero = 9223372036854775808 then some .uint64
      else none
    else none
  match uintRes with
  | some d => some d
  | none =>
    if bscale = 1 ∨ bscale = -1 then
      if 16 < bitpix then some .float64
      else if 0 < bitpix then some .float32
      else none
    else none

/-- `np.dtype('float{abs(bitpix)}')` for the negative-BITPIX fallback. -/
def float_for_bitpix (bitpix : Int) : Option Dtype :=
  if bitpix = -32 then some .float32
  else if bitpix = -64 then some .float64
  else none

/-- The storage-derived part of `FitsLazyLoadable.dtype` (fits.py lines
1450-1460): unscaled data keeps its BITPIX type, scaled data takes astropy's
corrected type, and a still-undetermined negative BITPIX falls back to the
matching float type. -/
def storage_dtype (bitpix bscale bzero : Int) (uintFlag : Bool) : Option Dtype :=
  let d0 :=
    if bscale = 1 ∧ bzero = 0 then bitpix2dtype bitpix
    else dtype_for_bitpix bitpix bscale bzero uintFlag
  if d0 = none ∧ bitpix < 0 then float_for_bitpix bitpix else d0

/-- `FitsLazyLoadable.dtype` (fits.py lines 1444-1464): the storage-derived
dtype, overridden to unsigned 16-bit for a `DQ` extension or for the
unsigned 8-bit unit-scale convention. -/
def lazy_dtype (bitpix bscale bzero : Int) (uintFlag : Bool) (extname : String) :
    Option Dtype :=
  if extname = "DQ" ∨ (uintFlag ∧ bscale = 1 ∧ bitpix = 8) then some .uint16
  else storage_dtype bitpix bscale bzero uintFlag

/-! ### C8: elementwise arithmetic (fits.py lines 749-772) -/

/-- The part of an `NDAstroData` operand that the arithmetic claim concerns:
pixel data, optional mask, and metadata. -/
structure NDOperand where
  data : Arr Int
  mask : Option (Arr Nat)
  meta : List (String × Int)

/-- `np.bitwise_or` on two same-shaped mask arrays. -/
def bitwise_or_arr (a b : Arr Nat) : Arr Nat :=
  ⟨a.rows, a.cols, fun i j => Nat.lor (a.val i j) (b.val i j)⟩

/-- Mask combination of astropy's `NDArithmeticMixin` (external library,
transcribed): with a `handle_mask` function, a single present mask is copied
through and two present masks are merged with the function. -/
def arith_mask (handle_mask : Arr Nat → Arr Nat → Arr Nat)
    (m1 m2 : Option (Arr Nat)) : Option (Arr Nat) :=
  match m1, m2 with
  | none, none => none
  | some m, none => some m
  | none, some m => some m
  | some a, some b => some (handle_mask a b)

/-- `handle_meta='first_found'` of astropy's `NDArithmeticMixin` (external
library, transcribed): keep the first operand's metadata unless it is empty. -/
def first_found_meta (m1 m2 : List (String × Int)) : List (String × Int) :=
  if m1 = [] then m2 else m1

/-- The elementwise arithmetic kernel astropy runs for
`NDDataObject.add/subtract/multiply/divide` with explicit mask and meta
handlers; `f` is the pixel operator. -/
def nddata_arith (f : Int → Int → Int)
    (handle_mask : Arr Nat → Arr Nat → Arr Nat)
    (handle_meta : List (String × Int) → List (String × Int) → List (String × Int))
    (a b : NDOperand) : NDOperand :=
  { data := ⟨a.data.rows, a.data.cols, fun i j => f (a.data.val i j) (b.data.val i j)⟩
    mask := arith_mask handle_mask a.mask b.mask
    meta := handle_meta a.meta b.meta }

/-- `FitsProvider._standard_nddata_op` (fits.py lines 770-772): partially
apply the operator with `handle_mask=np.bitwise_or` and
`handle_meta='first_found'`. -/
def standard_nddata_op (f : Int → Int → Int) (a b : NDOperand) : NDOperand :=
  nddata_arith f bitwise_or_arr first_found_meta a b

/-- Concrete operands whose masks hold `0b01` and `0b10` everywhere. -/
def operandA : NDOperand :=
  { data := arr0, mask := some ⟨1, 1, fun _ _ => 1⟩, meta := [("K", 5)] }

/-- Second concrete operand; its metadata conflicts with `operandA` on `K`. -/
def operandB : NDOperand :=
  { data := arr0, mask := some ⟨1, 1, fun _ _ => 2⟩, meta := [("K", 9)] }

/-! ### C9: path and original filename (fits.py lines 1003-1030) -/

/-- `os.path.basename` for POSIX paths: the part after the last slash. -/
def basename (s : String) : String :=
  String.mk (s.toList.foldl (fun acc ch => if ch = '/' then [] else acc ++ [ch]) [])

/-- `os.path.dirname` for POSIX paths: the part before the last slash. -/
def dirname (s : String) : String :=
  String.mk ((s.toList.reverse.dropWhile (fun ch => ch ≠ '/')).drop 1).reverse

/-- `os.path.isabs` for POSIX paths. -/
def isAbsPath (s : String) : Bool :=
  match s.toList with
  | [] => false
  | c :: _ => c = '/'

/-- `os.path.join(a, b)` for a relative `b`. -/
def joinPath (a b : String) : String :=
  if a = "" then b else a ++ "/" ++ b

/-- The `FitsProvider.path` setter (fits.py lines 1007-1011): capture the
original filename when the stored path is still `None` and the new value is
not, then store the new path. -/
def set_path (c : FitsProvider) (value : Option String) : FitsProvider :=
  let c1 :=
    if c.path = none ∧ value ≠ none then
      { c with orig_filename := value.map basename }
    else c
  { c1 with path := value }

/-- The `FitsProvider.filename` setter (fits.py lines 1018-1026): reject
absolute paths; otherwise resolve against the current working directory when
no path is stored, or against the stored path's directory. -/
def set_filename (cwd : String) (c : FitsProvider) (value : String) :
    Except String FitsProvider :=
  if isAbsPath value then .error "Cannot set the filename to an absolute path!"
  else
    match c.path with
    | none => .ok (set_path c (some (joinPath cwd value)))
    | some p => .ok (set_path c (some (joinPath (dirname p) value)))

/-! ## Theorems -/


/-! ### C1 -/

theorem mem_rangeList {s e st x : Int} (hx : x ∈ rangeList s e st) :
    ∃ k : Nat, k < rangeLen s e st ∧ x = s + st * (k : Int) := by
  simp only [rangeList, List.mem_map, List.mem_range] at hx
  obtain ⟨k, hk, hfk⟩ := hx
  exact ⟨k, hk, hfk.symm⟩

theorem rangeList_lt_of_pos {s e st : Int} (hst : 0 < st) :
    ∀ x ∈ rangeList s e st, x < e := by
  intro x hx
  obtain ⟨k, hk, rfl⟩ := mem_rangeList hx
  unfold rangeLen at hk
  rw [if_pos hst] at hk
  by_cases hes : e ≤ s
  · rw [if_pos hes] at hk; omega
  · rw [if_neg hes] at hk
    push_neg at hes
    set d : Nat := (e - s - 1).toNat with hd
    set t : Nat := st.toNat with ht
    have hts : (t : Int) = st := Int.toNat_of_nonneg hst.le
    have hdi : (d : Int) = e - s - 1 := Int.toNat_of_nonneg (by omega)
    have hk2 : k ≤ d / t := Nat.lt_succ_iff.mp hk
    have hmul : st * (k : Int) ≤ (e - s - 1) := by
      have h1 : st * (k : Int) ≤ st * ((d / t : Nat) : Int) := by
        apply mul_le_mul_of_nonneg_left _ hst.le
        exact_mod_cast hk2
      have h2 : ((d / t * t : Nat) : Int) ≤ ((d : Nat) : Int) :=
        Int.ofNat_le.mpr (Nat.div_mul_le_self d t)
      have h3 : st * ((d / t : Nat) : Int) = ((d / t * t : Nat) : Int) := by
        push_cast [hts.symm]
        ring
      calc st * (k : Int) ≤ st * ((d / t : Nat) : Int) := h1
        _ = ((d / t * t : Nat) : Int) := h3
        _ ≤ (d : Int) := h2
        _ = e - s - 1 := hdi
    linarith

theorem rangeList_le_of_neg {s e st : Int} (hst : st < 0) :
    ∀ x ∈ rangeList s e st, x ≤ s := by
  intro x hx
  obtain ⟨k, _, rfl⟩ := mem_rangeList hx
  have hk0 : (0 : Int) ≤ (k : Int) := Int.natCast_nonneg k
  have h0 : st * (k : Int) ≤ 0 := mul_nonpos_of_nonpos_of_nonneg hst.le hk0
  linarith

theorem clampIdx_le {lower upper : Int} (v : Int) (h : lower ≤ upper) :
    clampIdx lower upper v ≤ upper := by
  unfold clampIdx
  split_ifs <;> omega

theorem sliceBound_le {ov : Option Int} {dflt lower upper : Int} {n : Nat}
    (h : lower ≤ upper) (hd : dflt ≤ upper) :
    sliceBound ov dflt lower upper n ≤ upper := by
  cases ov with
  | none => exact hd
  | some v => exact clampIdx_le _ h

theorem sliceIndices_eq (a b c : Option Int) (n : Nat) (hc : c ≠ some 0) :
    sliceIndices a b c n =
      some (sliceBound a
              (if sliceStep c < 0 then (if sliceStep c < 0 then (n : Int) - 1 else (n : Int))
               else (if sliceStep c < 0 then -1 else 0))
              (if sliceStep c < 0 then -1 else 0)
              (if sliceStep c < 0 then (n : Int) - 1 else (n : Int)) n,
            sliceBound b
              (if sliceStep c < 0 then (if sliceStep c < 0 then -1 else 0)
               else (if sliceStep c < 0 then (n : Int) - 1 else (n : Int)))
              (if sliceStep c < 0 then -1 else 0)
              (if sliceStep c < 0 then (n : Int) - 1 else (n : Int)) n,
            sliceStep c) := by
  unfold sliceIndices
  rw [if_neg hc]

theorem sliceStep_ne_zero {c : Option Int} (hc : c ≠ some 0) : sliceStep c ≠ 0 := by
  cases c with
  | none => simp [sliceStep]
  | some v =>
    simp only [sliceStep, Option.getD_some]
    intro hv
    exact hc (by rw [hv])

theorem sliceIndices_bound {a b c : Option Int} {n : Nat} {s e st : Int}
    (h : sliceIndices a b c n = some (s, e, st)) :
    st ≠ 0 ∧ (0 < st → e ≤ (n : Int)) ∧ (st < 0 → s ≤ (n : Int) - 1) := by
  have hc : c ≠ some 0 := by
    intro hc0
    rw [hc0] at h
    simp [sliceIndices] at h
  rw [sliceIndices_eq a b c n hc] at h
  simp only [Option.some.injEq, Prod.mk.injEq] at h
  obtain ⟨hs, he, hst⟩ := h
  refine ⟨hst ▸ sliceStep_ne_zero hc, ?_, ?_⟩
  · intro hpos
    have hneg : ¬ sliceStep c < 0 := by rw [hst]; omega
    rw [← he]
    simp only [if_neg hneg]
    exact sliceBound_le (by omega) (by omega)
  · intro hneg0
    have hneg2 : sliceStep c < 0 := by rw [hst]; exact hneg0
    rw [← hs]
    simp only [if_pos hneg2]
    exact sliceBound_le (by omega) (by omega)

theorem normalize_ok_int {nitems : Nat} {i : Int} {idxs : List Int} {mult : Bool}
    (h : normalize_indices (.int i) nitems = .ok (idxs, mult)) : mult = false := by
  simp only [normalize_indices] at h
  by_cases hany : (([resolveIdx nitems i]).any
      (fun x => decide ((nitems : Int) ≤ x))) = true
  · rw [if_pos hany] at h; cases h
  · rw [if_neg hany] at h; cases h; rfl

theorem normalize_ok_tup {nitems : Nat} {xs : List Int} {idxs : List Int} {mult : Bool}
    (h : normalize_indices (.tup xs) nitems = .ok (idxs, mult)) : mult = true := by
  simp only [normalize_indices] at h
  by_cases hany : ((xs.map (resolveIdx nitems)).any
      (fun x => decide ((nitems : Int) ≤ x))) = true
  · rw [if_pos hany] at h; cases h
  · rw [if_neg hany] at h; cases h; rfl

theorem normalize_ok_slc {nitems : Nat} {a b c : Option Int} {idxs : List Int}
    {mult : Bool}
    (h : normalize_indices (.slc a b c) nitems = .ok (idxs, mult)) : mult = true := by
  rcases hsl : sliceIndices a b c nitems with _ | ⟨s, e, st⟩
  · simp only [normalize_indices, hsl] at h
    cases h
  · simp only [normalize_indices, hsl] at h
    by_cases hany : ((rangeList s e st).any
        (fun x => decide ((nitems : Int) ≤ x))) = true
    · rw [if_pos hany] at h; cases h
    · rw [if_neg hany] at h; cases h; rfl

/-- C1 (amended): for an integer or tuple selector, a negative index `i`
resolves to `nitems + i`; the operation raises the index-out-of-range error
exactly when some resolved index is `≥ nitems`, so an integer below `-nitems`
slips through with a negative resolved index instead of raising; a
nonzero-step slice selector always succeeds with in-range indices; and the
resulting view is `single` exactly when the selector was a single integer —
a tuple or slice yields a non-single view even for a length-one index list. -/
theorem normalize_indices_spec (nitems : Nat) (slc : Selector) :
    (∀ i : Int, slc = .int i →
      (resolveIdx nitems i < (nitems : Int) →
        normalize_indices slc nitems = .ok ([resolveIdx nitems i], false)) ∧
      ((nitems : Int) ≤ resolveIdx nitems i →
        normalize_indices slc nitems = .error "Index out of range")) ∧
    (∀ xs : List Int, slc = .tup xs →
      ((∀ x ∈ xs, resolveIdx nitems x < (nitems : Int)) →
        normalize_indices slc nitems = .ok (xs.map (resolveIdx nitems), true)) ∧
      ((∃ x ∈ xs, (nitems : Int) ≤ resolveIdx nitems x) →
        normalize_indices slc nitems = .error "Index out of range")) ∧
    (∀ a b c, slc = .slc a b c → c ≠ some 0 →
      ∃ idxs, normalize_indices slc nitems = .ok (idxs, true) ∧
        ∀ i ∈ idxs, i < (nitems : Int)) ∧
    (∀ v, provider_getitem nitems slc = .ok v →
      (v.single = true ↔ ∃ i, slc = .int i)) := by
  refine ⟨?_, ?_, ?_, ?_⟩
  · rintro i rfl
    constructor
    · intro hlt
      have hcond : ¬ ((nitems : Int) ≤ resolveIdx nitems i) := not_le.mpr hlt
      simp [normalize_indices, hcond]
    · intro hge
      simp [normalize_indices, hge]
  · rintro xs rfl
    constructor
    · intro hall
      have hany : ((xs.map (resolveIdx nitems)).any
          (fun i => decide ((nitems : Int) ≤ i))) = false := by
        rw [List.any_eq_false]
        intro x hx
        obtain ⟨y, hy, rfl⟩ := List.mem_map.mp hx
        simpa using not_le.mpr (hall y hy)
      simp [normalize_indices, hany]
    · rintro ⟨x, hx, hge⟩
      have hany : ((xs.map (resolveIdx nitems)).any
          (fun i => decide ((nitems : Int) ≤ i))) = true := by
        rw [List.any_eq_true]
        exact ⟨resolveIdx nitems x, List.mem_map_of_mem _ hx, by simpa using hge⟩
      simp [normalize_indices, hany]
  · rintro a b c rfl hc
    obtain ⟨s, e, st, hse⟩ :
        ∃ s e st, sliceIndices a b c nitems = some (s, e, st) := by
      rw [sliceIndices_eq a b c nitems hc]
      exact ⟨_, _, _, rfl⟩
    obtain ⟨hstz, hpos, hneg⟩ := sliceIndices_bound hse
    have hlt : ∀ x ∈ rangeList s e st, x < (nitems : Int) := by
      intro x hx
      rcases lt_or_gt_of_ne hstz with hdn | hup
      · have h1 := rangeList_le_of_neg hdn x hx
        have h2 := hneg hdn
        omega
      · have h1 := rangeList_lt_of_pos hup x hx
        have h2 := hpos hup
        omega
    refine ⟨rangeList s e st, ?_, hlt⟩
    have hany : ((rangeList s e st).any
        (fun i => decide ((nitems : Int) ≤ i))) = false := by
      rw [List.any_eq_false]
      intro x hx
      simpa using not_le.mpr (hlt x hx)
    simp [normalize_indices, hse, hany]
  · intro v hv
    simp only [provider_getitem] at hv
    rcases hnorm : normalize_indices slc nitems with msg | p <;> rw [hnorm] at hv
    · cases hv
    · obtain ⟨idxs, mult⟩ := p
      cases hv
      cases slc with
      | int i =>
        have hm := normalize_ok_int hnorm
        subst hm
        exact ⟨fun _ => ⟨i, rfl⟩, fun _ => rfl⟩
      | tup xs =>
        have hm := normalize_ok_tup hnorm
        subst hm
        constructor
        · intro h
          simp at h
        · rintro ⟨i, hh⟩
          cases hh
      | slc a b c =>
        have hm := normalize_ok_slc hnorm
        subst hm
        constructor
        · intro h
          simp at h
        · rintro ⟨i, hh⟩
          cases hh

/-- C1 counterexample: on a three-unit container the integer selector `-5` is
out of range, yet `normalize_indices` resolves it to the negative index `-2`
and returns it without raising, contradicting the claim that any out-of-range
index raises the index-out-of-range error. -/
theorem normalize_indices_cex :
    normalize_indices (Selector.int (-5)) 3 = .ok ([-2], false) ∧
    normalize_indices (Selector.int (-5)) 3 ≠ .error "Index out of range" := by
  constructor
  · rfl
  · intro h
    cases h

/-- C1 witness: the amended theorem applied to the selector `-2` on three
units (in range, resolved to index 1, single view) and to the tuple `(1,)`
(length-one index list, yet still a multiple selector). -/
theorem normalize_indices_spec_witness :
    normalize_indices (Selector.int (-2)) 3 = .ok ([1], false) ∧
    normalize_indices (Selector.tup [1]) 3 = .ok ([1], true) := by
  constructor
  · exact ((normalize_indices_spec 3 (Selector.int (-2))).1 (-2) rfl).1 (by decide)
  · exact ((normalize_indices_spec 3 (Selector.tup [1])).2.1 [1] rfl).1 (by decide)


/-! ### C2 -/

theorem collectLoop_fst (key : String) : ∀ (hs : List Hdr) (n : Nat),
    (collectLoop hs key n).1 = hs.map (fun h => lookupKey h key) := by
  intro hs
  induction hs with
  | nil => intro n; rfl
  | cons h t ih =>
    intro n
    simp only [collectLoop, List.map_cons]
    cases hlk : lookupKey h key <;> simp [hlk, ih]

theorem collectLoop_snd_length (key : String) : ∀ (hs : List Hdr) (n : Nat),
    (collectLoop hs key n).2.length
      = hs.countP (fun h => (lookupKey h key).isNone) := by
  intro hs
  induction hs with
  | nil => intro n; rfl
  | cons h t ih =>
    intro n
    simp only [collectLoop, List.countP_cons]
    cases hlk : lookupKey h key <;> simp [hlk, ih n.succ]

theorem collectLoop_mem_snd (key : String) : ∀ (hs : List Hdr) (n m : Nat),
    m ∈ (collectLoop hs key n).2 ↔
      ∃ j : Nat, hs[j]?.map (fun h => lookupKey h key) = some none ∧ m = n + j := by
  intro hs
  induction hs with
  | nil =>
    intro n m
    simp [collectLoop]
  | cons h t ih =>
    intro n m
    cases hlk : lookupKey h key with
    | some v =>
      simp only [collectLoop, hlk]
      constructor
      · intro hm
        obtain ⟨j, hj, rfl⟩ := (ih (n + 1) m).mp hm
        refine ⟨j + 1, ?_, by omega⟩
        simpa using hj
      · rintro ⟨j, hj, rfl⟩
        rw [ih (n + 1)]
        cases j with
        | zero => simp [hlk] at hj
        | succ j =>
          refine ⟨j, ?_, by omega⟩
          simpa using hj
    | none =>
      simp only [collectLoop, hlk, List.mem_cons]
      constructor
      · intro hm
        rcases hm with rfl | hm
        · exact ⟨0, by simp [hlk], by omega⟩
        · obtain ⟨j, hj, rfl⟩ := (ih (n + 1) m).mp hm
          refine ⟨j + 1, ?_, by omega⟩
          simpa using hj
      · rintro ⟨j, hj, rfl⟩
        cases j with
        | zero => left; omega
        | succ j =>
          right
          rw [ih (n + 1)]
          refine ⟨j, ?_, by omega⟩
          simpa using hj

theorem foldl_set_length (d : Option Int) : ∀ (ms : List Nat) (vs : List (Option Int)),
    (ms.foldl (fun a m => a.set m d) vs).length = vs.length := by
  intro ms
  induction ms with
  | nil => intro vs; rfl
  | cons m ms ih =>
    intro vs
    rw [List.foldl_cons, ih, List.length_set]

theorem foldl_set_getElem (d : Option Int) : ∀ (ms : List Nat) (vs : List (Option Int)),
    (∀ m ∈ ms, m < vs.length) → ∀ i : Nat,
    (ms.foldl (fun a m => a.set m d) vs)[i]? = if i ∈ ms then some d else vs[i]? := by
  intro ms
  induction ms with
  | nil =>
    intro vs _ i
    simp
  | cons m ms ih =>
    intro vs hb i
    rw [List.foldl_cons]
    have hb2 : ∀ m2 ∈ ms, m2 < (vs.set m d).length := by
      intro m2 hm2
      rw [List.length_set]
      exact hb m2 (List.mem_cons_of_mem _ hm2)
    rw [ih (vs.set m d) hb2 i]
    by_cases him : i ∈ ms
    · rw [if_pos him, if_pos (List.mem_cons_of_mem _ him)]
    · rw [if_neg him]
      by_cases heq : i = m
      · subst heq
        rw [if_pos (List.mem_cons_self _ _), List.getElem?_set, if_pos rfl,
          if_pos (hb i (List.mem_cons_self _ _))]
      · rw [List.getElem?_set_ne (fun hh => heq hh.symm),
          if_neg (by simp [List.mem_cons, him, heq])]

theorem countP_none_add_some (key : String) : ∀ hs : List Hdr,
    hs.countP (fun h => (lookupKey h key).isNone)
      + hs.countP (fun h => (lookupKey h key).isSome) = hs.length := by
  intro hs
  induction hs with
  | nil => rfl
  | cons h t ih =>
    simp only [List.countP_cons, List.length_cons]
    cases hlk : lookupKey h key <;> simp [hlk] <;> omega

/-- C2: on a group of N headers of which only some contain the key, group
access without a default raises the enriched key error whose missing-index
set has size N minus the number of members holding the key and which carries
the partial value list; `get` with an explicit default raises nothing and
returns an N-entry list holding the default at exactly the missing positions
and the stored values elsewhere. -/
theorem hdrcol_spec (headers : List Hdr) (key : String) (x : Int)
    (hmiss : ∃ h ∈ headers, lookupKey h key = none) :
    (∃ e, hdrcol_getitem headers key = .error e ∧
      e.missing_at.length + headers.countP (fun h => (lookupKey h key).isSome)
        = headers.length ∧
      e.values = headers.map (fun h => lookupKey h key)) ∧
    (hdrcol_get headers key (some x)).length = headers.length ∧
    ∀ i : Nat, (hdrcol_get headers key (some x))[i]? =
      headers[i]?.map (fun h =>
        match lookupKey h key with
        | none => some x
        | some v => some v) := by
  have hmem : ∀ m : Nat, m ∈ (collectLoop headers key 0).2 ↔
      headers[m]?.map (fun h => lookupKey h key) = some none := by
    intro m
    rw [collectLoop_mem_snd key headers 0 m]
    constructor
    · rintro ⟨j, hj, rfl⟩
      simpa using hj
    · intro hm
      exact ⟨m, hm, by omega⟩
  have hne : (collectLoop headers key 0).2 ≠ [] := by
    obtain ⟨h0, hh0, hl0⟩ := hmiss
    obtain ⟨j, hjlt, hjv⟩ := List.getElem_of_mem hh0
    have hj : headers[j]?.map (fun h => lookupKey h key) = some none := by
      rw [List.getElem?_eq_getElem hjlt, hjv]
      simp [hl0]
    exact List.ne_nil_of_mem ((hmem j).mpr hj)
  have hgetitem : hdrcol_getitem headers key
      = .error ⟨(collectLoop headers key 0).2, (collectLoop headers key 0).1⟩ := by
    simp only [hdrcol_getitem]
    rw [if_neg hne]
  have hget : hdrcol_get headers key (some x)
      = (collectLoop headers key 0).2.foldl
          (fun vs n => vs.set n (some x)) (collectLoop headers key 0).1 := by
    simp only [hdrcol_get, hgetitem]
  have hbound : ∀ m ∈ (collectLoop headers key 0).2,
      m < (collectLoop headers key 0).1.length := by
    intro m hm
    rw [hmem m] at hm
    rw [collectLoop_fst, List.length_map]
    cases hjh : headers[m]? with
    | none => rw [hjh] at hm; simp at hm
    | some hh =>
      obtain ⟨hlt, _⟩ := List.getElem?_eq_some_iff.mp hjh
      exact hlt
  refine ⟨⟨_, hgetitem, ?_, collectLoop_fst key headers 0⟩, ?_, ?_⟩
  · rw [collectLoop_snd_length key headers 0]
    exact countP_none_add_some key headers
  · rw [hget, foldl_set_length, collectLoop_fst, List.length_map]
  · intro i
    rw [hget, foldl_set_getElem (some x) _ _ hbound i]
    by_cases him : i ∈ (collectLoop headers key 0).2
    · rw [if_pos him]
      rw [hmem i] at him
      cases hjh : headers[i]? with
      | none => rw [hjh] at him; simp at him
      | some hh =>
        rw [hjh] at him
        simp only [Option.map_some'] at him
        have : lookupKey hh key = none := Option.some.inj him
        simp [this]
    · rw [if_neg him]
      rw [collectLoop_fst, List.getElem?_map]
      rw [hmem i] at him
      cases hjh : headers[i]? with
      | none => simp
      | some hh =>
        rw [hjh] at him
        simp only [Option.map_some'] at him
        cases hlk : lookupKey hh key with
        | none => exact absurd (by rw [hlk]) him
        | some v => simp [hlk]

/-- C2 witness: the theorem applied to three concrete headers of which the
middle one lacks the key: the filled list has length 3 and holds the default
at position 1. -/
theorem hdrcol_spec_witness :
    (hdrcol_get hdrsEx "A" (some 99)).length = hdrsEx.length ∧
    (hdrcol_get hdrsEx "A" (some 99))[1]? =
      (hdrsEx[1]?.map (fun h =>
        match lookupKey h "A" with
        | none => some (99 : Int)
        | some v => some v)) := by
  have hs := hdrcol_spec hdrsEx "A" 99 ⟨[("B", 7)], by decide, by decide⟩
  exact ⟨hs.2.1, hs.2.2 1⟩


/-! ### C3 -/

theorem countP_range_eq_self (n m : Nat) :
    (List.range n).countP (fun j => decide (j = m)) = if m < n then 1 else 0 := by
  induction n with
  | zero => simp
  | succ n ih =>
    rw [List.range_succ, List.countP_append, ih]
    have hsing : List.countP (fun j => decide (j = m)) [n]
        = if n = m then 1 else 0 := by
      by_cases h : n = m <;> simp [List.countP_cons, h]
    rw [hsing]
    rcases Nat.lt_trichotomy m n with hlt | heq | hgt
    · rw [if_pos hlt, if_neg (show ¬ n = m by omega),
        if_pos (show m < n + 1 by omega)]
    · rw [if_neg (show ¬ m < n by omega), if_pos (show n = m by omega),
        if_pos (show m < n + 1 by omega)]
    · rw [if_neg (show ¬ m < n by omega), if_neg (show ¬ n = m by omega),
        if_neg (show ¬ m < n + 1 by omega)]

theorem ticks_countP_one (a k q : Nat) (hk : 0 < k) (hq : q < a) :
    (ticks a k).countP
      (fun b => decide (b.1 ≤ q) && decide (q < min b.2 a)) = 1 := by
  unfold ticks
  rw [List.countP_map]
  have hcongr : ∀ m ∈ List.range ((a + k - 1) / k),
      ((fun b => decide (b.1 ≤ q) && decide (q < min b.2 a)) ∘
        (fun m => (m * k, m * k + k))) m = true ↔
      (fun j => decide (j = q / k)) m = true := by
    intro m _
    simp only [Function.comp_apply, Bool.and_eq_true, decide_eq_true_eq, lt_min_iff]
    constructor
    · rintro ⟨hlo, hhi, _⟩
      have hmul : (m + 1) * k = m * k + k := Nat.succ_mul m k
      exact (Nat.div_eq_of_lt_le hlo (by omega)).symm
    · rintro rfl
      have hlow : q / k * k ≤ q := Nat.div_mul_le_self q k
      have hmod := Nat.div_add_mod q k
      rw [Nat.mul_comm] at hmod
      have hmlt : q % k < k := Nat.mod_lt q hk
      exact ⟨hlow, by omega, hq⟩
  rw [List.countP_congr hcongr, countP_range_eq_self]
  have h2 : (a + k - 1) / k = (a - 1) / k + 1 := by
    have ha : a + k - 1 = (a - 1) + k := by omega
    rw [ha, Nat.add_div_right _ hk]
  have h1 : q / k ≤ (a - 1) / k := Nat.div_le_div_right (by omega)
  rw [if_pos (by omega)]

theorem sum_map_zero {α : Type} (l : List α) :
    (l.map (fun _ => (0 : Nat))).sum = 0 := by
  induction l with
  | nil => rfl
  | cons x xs ih => simp [ih]

theorem countP_and_const {α : Type} (c : Bool) (g : α → Bool) (l : List α) :
    l.countP (fun b => c && g b) = if c then l.countP g else 0 := by
  cases c with
  | true => simp
  | false => simp

theorem sum_map_ite_countP {α : Type} (f : α → Bool) (c : Nat) (l : List α) :
    (l.map (fun x => if f x then c else 0)).sum = l.countP f * c := by
  induction l with
  | nil => simp
  | cons x xs ih =>
    simp only [List.map_cons, List.sum_cons, List.countP_cons, ih]
    by_cases hx : f x = true
    · rw [if_pos hx, if_pos hx]
      have : (xs.countP f + 1) * c = xs.countP f * c + c := Nat.succ_mul _ _
      omega
    · rw [if_neg hx, if_neg hx, Nat.add_zero]
      omega

theorem countP_cartProd_eq : ∀ (tss : List (List (Nat × Nat))) (sh p : List Nat),
    (cartProd tss).countP (fun b => inBoxB b sh p) = countsProd tss sh p := by
  intro tss
  induction tss with
  | nil =>
    intro sh p
    cases sh <;> cases p <;>
      simp [cartProd, countsProd, inBoxB, List.countP_cons, List.countP_nil]
  | cons ts tss ih =>
    intro sh p
    show (ts.flatMap fun x => (cartProd tss).map (fun b => x :: b)).countP
        (fun b => inBoxB b sh p) = countsProd (ts :: tss) sh p
    rw [List.countP_flatMap]
    cases sh with
    | nil =>
      have hz : ∀ x ∈ ts, (List.countP (fun b => inBoxB b [] p) ∘
          fun x => (cartProd tss).map (fun b => x :: b)) x = 0 := by
        intro x _
        simp only [Function.comp_apply, List.countP_map]
        rw [List.countP_eq_zero]
        intro b _
        simp [Function.comp_apply, inBoxB]
      rw [List.map_congr_left hz, sum_map_zero]
      cases p <;> rfl
    | cons a sh2 =>
      cases p with
      | nil =>
        have hz : ∀ x ∈ ts, (List.countP (fun b => inBoxB b (a :: sh2) []) ∘
            fun x => (cartProd tss).map (fun b => x :: b)) x = 0 := by
          intro x _
          simp only [Function.comp_apply, List.countP_map]
          rw [List.countP_eq_zero]
          intro b _
          simp [Function.comp_apply, inBoxB]
        rw [List.map_congr_left hz, sum_map_zero]
        rfl
      | cons q ps =>
        have hstep : ∀ x ∈ ts, (List.countP (fun b => inBoxB b (a :: sh2) (q :: ps)) ∘
            fun x => (cartProd tss).map (fun b => x :: b)) x =
            (fun x => if (decide (x.1 ≤ q) && decide (q < min x.2 a)) then
              countsProd tss sh2 ps else 0) x := by
          intro x _
          simp only [Function.comp_apply, List.countP_map]
          have hb : ∀ b, ((fun b => inBoxB b (a :: sh2) (q :: ps)) ∘
              (fun b => x :: b)) b =
              ((decide (x.1 ≤ q) && decide (q < min x.2 a)) &&
                inBoxB b sh2 ps) := by
            intro b
            rfl
          calc (cartProd tss).countP ((fun b => inBoxB b (a :: sh2) (q :: ps)) ∘
                (fun b => x :: b))
              = (cartProd tss).countP (fun b =>
                  (decide (x.1 ≤ q) && decide (q < min x.2 a)) &&
                    inBoxB b sh2 ps) := by
                apply List.countP_congr
                intro b _
                rw [hb b]
            _ = if (decide (x.1 ≤ q) && decide (q < min x.2 a)) then
                  (cartProd tss).countP (fun b => inBoxB b sh2 ps) else 0 :=
                countP_and_const _ _ _
            _ = if (decide (x.1 ≤ q) && decide (q < min x.2 a)) then
                  countsProd tss sh2 ps else 0 := by rw [ih]
        rw [List.map_congr_left hstep]
        rw [sum_map_ite_countP]
        rfl

theorem countsProd_eq_one : ∀ (shape kernel p : List Nat),
    shape.length = kernel.length → (∀ k ∈ kernel, 0 < k) →
    validCellB shape p = true →
    countsProd (List.zipWith ticks shape kernel) shape p = 1 := by
  intro shape
  induction shape with
  | nil =>
    intro kernel p hlen _ hp
    cases kernel with
    | nil =>
      cases p with
      | nil => rfl
      | cons q ps => simp [validCellB] at hp
    | cons k ks => simp at hlen
  | cons a sh ih =>
    intro kernel p hlen hpos hp
    cases kernel with
    | nil => simp at hlen
    | cons k ks =>
      cases p with
      | nil => simp [validCellB] at hp
      | cons q ps =>
        simp only [validCellB, Bool.and_eq_true, decide_eq_true_eq] at hp
        simp only [List.zipWith_cons_cons]
        show (ticks a k).countP
            (fun b => decide (b.1 ≤ q) && decide (q < min b.2 a)) *
          countsProd (List.zipWith ticks sh ks) sh ps = 1
        rw [ticks_countP_one a k q (hpos k (List.mem_cons_self _ _)) hp.1]
        rw [ih ks ps (by simpa using hlen)
          (fun k2 hk2 => hpos k2 (List.mem_cons_of_mem _ hk2)) hp.2]

theorem foldl_write_not_covered (shape : List Nat) (input : List Nat → Int) :
    ∀ (boxes : List (List (Nat × Nat))) (init : List Nat → Int) (p : List Nat),
    (∀ b ∈ boxes, inBoxB b shape p = false) →
    (boxes.foldl
      (fun res box => fun q => if inBoxB box shape q then input q else res q)
      init) p = init p := by
  intro boxes
  induction boxes with
  | nil => intro init p _; rfl
  | cons b bs ih =>
    intro init p hnone
    rw [List.foldl_cons]
    rw [ih _ p (fun b2 hb2 => hnone b2 (List.mem_cons_of_mem _ hb2))]
    rw [if_neg (by rw [hnone b (List.mem_cons_self _ _)]; simp)]

theorem foldl_write_covered (shape : List Nat) (input : List Nat → Int) :
    ∀ (boxes : List (List (Nat × Nat))) (init : List Nat → Int) (p : List Nat),
    (∃ b ∈ boxes, inBoxB b shape p = true) →
    (boxes.foldl
      (fun res box => fun q => if inBoxB box shape q then input q else res q)
      init) p = input p := by
  intro boxes
  induction boxes with
  | nil =>
    intro init p hex
    obtain ⟨b, hb, _⟩ := hex
    cases hb
  | cons b bs ih =>
    intro init p hex
    rw [List.foldl_cons]
    by_cases hbs : ∃ b2 ∈ bs, inBoxB b2 shape p = true
    · exact ih _ p hbs
    · push_neg at hbs
      have hnone : ∀ b2 ∈ bs, inBoxB b2 shape p = false := by
        intro b2 hb2
        have := hbs b2 hb2
        simpa using this
      rw [foldl_write_not_covered shape input bs _ p hnone]
      obtain ⟨b0, hb0, hcov⟩ := hex
      rcases List.mem_cons.mp hb0 with rfl | hmem
      · rw [if_pos hcov]
      · exact absurd hcov (by rw [hnone b0 hmem]; simp)

/-- C3: the boxes generated by `windowedOp.generate_boxes` for a positive
tile shape cover every valid pixel of the output exactly once (pairwise
disjoint, no gaps, with numpy clamping of the oversized last tile per axis),
so the tile loop applied to an identity function reproduces the input at
every pixel. -/
theorem windowedOp_tiles_spec (shape kernel : List Nat)
    (boxes : List (List (Nat × Nat)))
    (hgen : generate_boxes shape kernel = .ok boxes)
    (hpos : ∀ k ∈ kernel, 0 < k) (p : List Nat)
    (hp : validCellB shape p = true) :
    boxes.countP (fun b => inBoxB b shape p) = 1 ∧
    ∀ input : List Nat → Int, applyBoxes shape boxes input p = input p := by
  have hparse : shape.length = kernel.length ∧
      boxes = cartProd (List.zipWith ticks shape kernel) := by
    unfold generate_boxes at hgen
    by_cases h : shape.length ≠ kernel.length
    · rw [if_pos h] at hgen
      cases hgen
    · rw [if_neg h] at hgen
      cases hgen
      exact ⟨not_not.mp h, rfl⟩
  obtain ⟨hlen, rfl⟩ := hparse
  have hcount : (cartProd (List.zipWith ticks shape kernel)).countP
      (fun b => inBoxB b shape p) = 1 := by
    rw [countP_cartProd_eq]
    exact countsProd_eq_one shape kernel p hlen hpos hp
  refine ⟨hcount, ?_⟩
  intro input
  have hex : ∃ b ∈ cartProd (List.zipWith ticks shape kernel),
      inBoxB b shape p = true :=
    List.countP_pos_iff.mp (by rw [hcount]; omega)
  exact foldl_write_covered shape input _ _ p hex

/-- C3 witness: for a 100×100 array tiled with kernel (30, 30), the pixel
(95, 17) lies in exactly one generated box and the identity tile loop
reproduces the input there. -/
theorem windowedOp_tiles_witness :
    boxes100.countP (fun b => inBoxB b [100, 100] [95, 17]) = 1 ∧
    applyBoxes [100, 100] boxes100 (fun q => ((q.headD 0 : Nat) : Int)) [95, 17]
      = (95 : Int) := by
  have h := windowedOp_tiles_spec [100, 100] [30, 30] boxes100 rfl
    (by decide) [95, 17] (by decide)
  exact ⟨h.1, h.2 (fun q => ((q.headD 0 : Nat) : Int))⟩


/-! ### C4 -/

/-- C4: evaluating crop at the failing input.  On a unit whose data and
uncertainty are 100×100 and whose side-car mapping holds a raw ndarray of
the same shape, `crop(10, 10, 49, 49)` crops the unit's own planes to 40×40
but then raises `NotImplementedError` (slicing the ndarray's memoryview
`.data` with a two-dimensional tuple, uncaught by `except AttributeError`),
so the shape-matching side-car is left untouched and the exception escapes —
against the claim that every side-car whose shape equals the pre-crop shape
of `data` is cropped. -/
theorem crop_ndarray_sidecar_bug :
    (crop_impl_unit unitArrEx 10 10 49 49).2
      = some "NotImplementedError: multi-dimensional sub-views are not implemented" ∧
    (crop_impl_unit unitArrEx 10 10 49 49).1.data.rows = 40 ∧
    (crop_impl_unit unitArrEx 10 10 49 49).1.data.cols = 40 ∧
    (crop_impl_unit unitArrEx 10 10 49 49).1.other = unitArrEx.other := by
  refine ⟨rfl, by decide, by decide, rfl⟩

/-! ### C5 -/

theorem maxList_cons_ne_none (x : Int) (xs : List Int) :
    maxList (x :: xs) ≠ none := by
  simp only [maxList]
  cases maxList xs <;> simp

theorem maxList_le : ∀ (l : List Int) (m : Int), maxList l = some m →
    ∀ x ∈ l, x ≤ m := by
  intro l
  induction l with
  | nil =>
    intro m hm
    cases hm
  | cons x xs ih =>
    intro m hm y hy
    simp only [maxList] at hm
    cases hxs : maxList xs with
    | none =>
      rw [hxs] at hm
      cases hm
      rcases List.mem_cons.mp hy with rfl | hy2
      · exact le_refl y
      · cases xs with
        | nil => cases hy2
        | cons z zs => exact absurd hxs (maxList_cons_ne_none z zs)
    | some m2 =>
      rw [hxs] at hm
      cases hm
      rcases List.mem_cons.mp hy with rfl | hy2
      · exact le_max_left _ _
      · exact le_trans (ih m2 hxs y hy2) (le_max_right x m2)

theorem get_max_ver_eq (c : FitsProvider) :
    get_max_ver c = match maxList (vers c) with
      | none => 1
      | some m => m + 1 := rfl

/-- C5: appending a formed unit with version reassignment stamps it with 1 on
an empty container and with the maximum stored version plus one otherwise,
and therefore preserves uniqueness of the version numbers. -/
theorem append_version_spec (c : FitsProvider) (nd : NDUnit) :
    (c.nddata = [] → get_max_ver c = 1) ∧
    (∀ m, maxList (vers c) = some m → get_max_ver c = m + 1) ∧
    ((vers c).Nodup → (vers (append_nddata c nd true).1).Nodup) := by
  refine ⟨?_, ?_, ?_⟩
  · intro hnil
    rw [get_max_ver_eq]
    simp [vers, hnil, maxList]
  · intro m hm
    rw [get_max_ver_eq, hm]
  · intro hnodup
    by_cases hname : nd.extname.getD default_extension = default_extension
    · have hv : vers (append_nddata c nd true).1 = vers c ++ [get_max_ver c] := by
        unfold append_nddata
        rw [if_pos hname]
        simp [vers, reset_ver]
      rw [hv, List.nodup_append]
      refine ⟨hnodup, List.nodup_singleton _, ?_⟩
      intro x hx hx2
      have hx1 : x = get_max_ver c := by simpa using hx2
      subst hx1
      cases hml : maxList (vers c) with
      | none =>
        cases hvc : vers c with
        | nil =>
          rw [hvc] at hx
          cases hx
        | cons a l =>
          rw [hvc] at hml
          exact absurd hml (maxList_cons_ne_none a l)
      | some m =>
        have hle := maxList_le (vers c) m hml _ hx
        have hgm : get_max_ver c = m + 1 := by rw [get_max_ver_eq, hml]
        omega
    · have hv : (append_nddata c nd true).1 = c := by
        unfold append_nddata
        rw [if_neg hname]
      rw [hv]
      exact hnodup

/-- C5 witness: the empty container assigns version 1; the container with
versions 1 and 3 assigns 4, and the appended list keeps its versions unique. -/
theorem append_version_witness :
    get_max_ver provider0 = 1 ∧
    get_max_ver provider13 = 4 ∧
    (vers (append_nddata provider13 (mkUnit (some "SCI") 7) true).1).Nodup := by
  have h0 := append_version_spec provider0 (mkUnit none 1)
  have h13 := append_version_spec provider13 (mkUnit (some "SCI") 7)
  refine ⟨h0.1 rfl, ?_, h13.2.2 (by decide)⟩
  have h2 := h13.2.1 3 (by decide)
  omega

/-! ### C10 -/

theorem process_pixel_plane_result (c : FitsProvider) (nd : NDUnit) (rv : Bool) :
    process_pixel_plane c nd none true rv = nd ∨
    process_pixel_plane c nd none true rv = reset_ver c nd := by
  show (if (rv || decide (nd.ver = -1)) = true then reset_ver c nd else nd) = nd ∨
    (if (rv || decide (nd.ver = -1)) = true then reset_ver c nd else nd)
      = reset_ver c nd
  by_cases h : (rv || decide (nd.ver = -1)) = true
  · right
    rw [if_pos h]
  · left
    rw [if_neg h]

/-- C10: a top-level append of a formed unit whose header carries an
extension name different from the default `SCI` label raises `ValueError`
and leaves the container's unit list untouched; a unit whose header carries
no name falls back to the default label and is appended (with its version
reassigned to the next free one). -/
theorem append_nddata_spec (c : FitsProvider) (nd : NDUnit) (rv : Bool) :
    (∀ s, nd.extname = some s → s ≠ default_extension →
      (append_raw_nddata c nd none rv).2 =
        .error "Arbitrary image extensions can only be added in association to a SCI" ∧
      (append_raw_nddata c nd none rv).1 = c) ∧
    (nd.extname = none →
      append_raw_nddata c nd none rv =
        ({ c with nddata := c.nddata ++ [{ nd with ver := get_max_ver c }] },
          .ok { nd with ver := get_max_ver c })) := by
  constructor
  · intro s hs hne
    rcases process_pixel_plane_result c nd rv with hcase | hcase <;>
      rw [show append_raw_nddata c nd none rv
          = append_nddata c (process_pixel_plane c nd none true rv) true from rfl,
        hcase]
    · have hn : nd.extname.getD default_extension = s := by rw [hs]; rfl
      unfold append_nddata
      rw [if_neg (by rw [hn]; exact hne)]
      exact ⟨rfl, rfl⟩
    · have hn : (reset_ver c nd).extname.getD default_extension = s := by
        show nd.extname.getD default_extension = s
        rw [hs]
        rfl
      unfold append_nddata
      rw [if_neg (by rw [hn]; exact hne)]
      exact ⟨rfl, rfl⟩
  · intro hs
    rcases process_pixel_plane_result c nd rv with hcase | hcase <;>
      rw [show append_raw_nddata c nd none rv
          = append_nddata c (process_pixel_plane c nd none true rv) true from rfl,
        hcase]
    · have hn : nd.extname.getD default_extension = default_extension := by
        rw [hs]
        rfl
      unfold append_nddata
      rw [if_pos hn]
      rfl
    · have hn : (reset_ver c nd).extname.getD default_extension
          = default_extension := by
        show nd.extname.getD default_extension = default_extension
        rw [hs]
        rfl
      unfold append_nddata
      rw [if_pos hn]
      rfl

/-- C10 witness: appending a `FOO`-named unit to the two-unit container fails
with the `ValueError` and leaves the container unchanged; appending an
unnamed unit succeeds with version 4. -/
theorem append_nddata_witness :
    (append_raw_nddata provider13 (mkUnit (some "FOO") 7) none true).1
      = provider13 ∧
    append_raw_nddata provider13 (mkUnit none 7) none true =
      ({ provider13 with
          nddata := provider13.nddata
            ++ [{ mkUnit none 7 with ver := get_max_ver provider13 }] },
        .ok { mkUnit none 7 with ver := get_max_ver provider13 }) := by
  have h1 := (append_nddata_spec provider13 (mkUnit (some "FOO") 7) true).1
    "FOO" rfl (by decide)
  have h2 := (append_nddata_spec provider13 (mkUnit none 7) true).2 rfl
  exact ⟨h1.2, h2⟩


/-! ### C6 -/

theorem unit_block_eq (u : NDUnit) :
    ([HDU.image (some "SCI")] ++
      (match u.uncertainty with
       | some _ => [HDU.image (some "VAR")]
       | none => []) ++
      (match u.mask with
       | some _ => [HDU.image (some "DQ")]
       | none => []) ++
      (match wcs_after_fits u with
       | some _ => [HDU.wcstable]
       | none => []) ++
      u.other.map (fun p => sidecar_hdu u p)) = unit_block u := by
  unfold unit_block
  cases hu : u.uncertainty <;> cases hm : u.mask <;>
    cases hw : wcs_after_fits u <;> simp [hu, hm, hw]

/-- C6 (amended): serialization emits the primary header first, then for
each unit in position order its `SCI` image, its `VAR` image when an
uncertainty is present, its `DQ` image when a mask is present, a WCS
extension when the transform could not be folded exactly into the header,
then the unit's side-cars in the insertion order of the `other` mapping (not
sorted by name); finally the registry tables sorted by name. -/
theorem to_hdulist_layout (c : FitsProvider) :
    to_hdulist c = serialize_layout c := by
  unfold to_hdulist serialize_layout
  rw [List.flatMap_def, List.map_congr_left (fun u _ => unit_block_eq u)]
  simp [List.append_assoc]

/-- C6 counterexample: a unit whose side-car mapping holds `ZZZ` before
`AAA` is serialized with `ZZZ` first — the side-cars keep insertion order,
while sorting the same names would put `AAA` first, so the claimed stable
name order for side-cars is violated. -/
theorem to_hdulist_sidecar_order_cex :
    to_hdulist providerC6 =
      [HDU.primary, HDU.image (some "SCI"), HDU.image (some "ZZZ"),
        HDU.image (some "AAA")] ∧
    to_hdulist providerC6 ≠
      [HDU.primary, HDU.image (some "SCI"), HDU.image (some "AAA"),
        HDU.image (some "ZZZ")] ∧
    (sortByName [("ZZZ", (0 : Nat)), ("AAA", 0)]).map Prod.fst
      = ["AAA", "ZZZ"] := by
  refine ⟨by decide, by decide, by decide⟩

/-! ### C7 -/

/-- C7: the reported corrected dtype is the storage-derived one, except that
a `DQ` extension always reports unsigned 16-bit, and the unsigned 8-bit
unit-scale convention also reports unsigned 16-bit. -/
theorem lazy_dtype_spec (bitpix bscale bzero : Int) (uintFlag : Bool)
    (extname : String) :
    (extname = "DQ" →
      lazy_dtype bitpix bscale bzero uintFlag extname = some .uint16) ∧
    (uintFlag = true → bscale = 1 → bitpix = 8 →
      lazy_dtype bitpix bscale bzero uintFlag extname = some .uint16) ∧
    (extname ≠ "DQ" → ¬(uintFlag = true ∧ bscale = 1 ∧ bitpix = 8) →
      lazy_dtype bitpix bscale bzero uintFlag extname
        = storage_dtype bitpix bscale bzero uintFlag) := by
  refine ⟨?_, ?_, ?_⟩
  · intro h
    unfold lazy_dtype
    rw [if_pos (Or.inl h)]
  · intro h1 h2 h3
    unfold lazy_dtype
    rw [if_pos (Or.inr ⟨h1, h2, h3⟩)]
  · intro h1 h2
    unfold lazy_dtype
    rw [if_neg (not_or.mpr ⟨h1, h2⟩)]

/-- C7 witness: a scaled 16-bit `DQ` extension reports uint16; an unsigned
8-bit unit-scale `SCI` extension reports uint16; a plain unscaled 16-bit
`SCI` extension reports its storage dtype (int16). -/
theorem lazy_dtype_witness :
    lazy_dtype 16 2 0 false "DQ" = some Dtype.uint16 ∧
    lazy_dtype 8 1 0 true "SCI" = some Dtype.uint16 ∧
    lazy_dtype 16 1 0 false "SCI" = storage_dtype 16 1 0 false := by
  have h1 := lazy_dtype_spec 16 2 0 false "DQ"
  have h2 := lazy_dtype_spec 8 1 0 true "SCI"
  have h3 := lazy_dtype_spec 16 1 0 false "SCI"
  exact ⟨h1.1 rfl, h2.2.1 rfl rfl rfl, h3.2.2 (by decide) (by decide)⟩

/-! ### C8 -/

/-- C8: the standard elementwise operation (any of add/subtract/multiply/
divide, abstracted as the pixel operator `f`) combines two present masks by
pixelwise bitwise OR, and keeps the first operand's metadata whenever the
first operand has any. -/
theorem standard_nddata_op_spec (f : Int → Int → Int) (a b : NDOperand)
    (ma mb : Arr Nat) (ha : a.mask = some ma) (hb : b.mask = some mb) :
    (standard_nddata_op f a b).mask = some (bitwise_or_arr ma mb) ∧
    (∀ i j, (bitwise_or_arr ma mb).val i j
      = Nat.lor (ma.val i j) (mb.val i j)) ∧
    (a.meta ≠ [] → (standard_nddata_op f a b).meta = a.meta) := by
  refine ⟨?_, fun i j => rfl, ?_⟩
  · show arith_mask bitwise_or_arr a.mask b.mask = some (bitwise_or_arr ma mb)
    rw [ha, hb]
    rfl
  · intro hne
    show first_found_meta a.meta b.meta = a.meta
    unfold first_found_meta
    rw [if_neg hne]

/-- C8 witness: combining the concrete operands whose masks hold `0b01` and
`0b10` yields `0b11` at the pixel, and the first operand's conflicting
metadata wins. -/
theorem standard_nddata_op_witness :
    (standard_nddata_op (fun x y => x + y) operandA operandB).mask
      = some (bitwise_or_arr ⟨1, 1, fun _ _ => 1⟩ ⟨1, 1, fun _ _ => 2⟩) ∧
    (bitwise_or_arr (⟨1, 1, fun _ _ => 1⟩ : Arr Nat)
      ⟨1, 1, fun _ _ => 2⟩).val 0 0 = 3 ∧
    (standard_nddata_op (fun x y => x + y) operandA operandB).meta
      = [("K", 5)] := by
  have h := standard_nddata_op_spec (fun x y => x + y) operandA operandB
    ⟨1, 1, fun _ _ => 1⟩ ⟨1, 1, fun _ _ => 2⟩ rfl rfl
  refine ⟨h.1, ?_, h.2.2 (by decide)⟩
  rw [h.2.1 0 0]
  decide

/-! ### C9 -/

theorem set_path_some_preserves (c : FitsProvider) (p : String)
    (hc : c.path = some p) (w : Option String) :
    (set_path c w).orig_filename = c.orig_filename := by
  unfold set_path
  have hcond : ¬ (c.path = none ∧ w ≠ none) := by
    rintro ⟨h1, _⟩
    rw [hc] at h1
    cases h1
  rw [if_neg hcond]

theorem set_path_foldl_preserves : ∀ (vs : List String) (c : FitsProvider)
    (p : String), c.path = some p →
    (vs.foldl (fun st x => set_path st (some x)) c).orig_filename
      = c.orig_filename := by
  intro vs
  induction vs with
  | nil =>
    intro c p hc
    rfl
  | cons x rest ih =>
    intro c p hc
    rw [List.foldl_cons, ih (set_path c (some x)) x rfl]
    exact set_path_some_preserves c p hc (some x)

/-- C9 (amended): the original name is captured at the first assignment of a
non-`None` path; while a path remains stored, no later assignment to path or
filename changes it — but assigning `None` clears the path and re-arms the
capture, so a subsequent path assignment overwrites the stored original
name. -/
theorem orig_filename_spec (c : FitsProvider) (v : String) (p : String) :
    (c.path = none → (set_path c (some v)).orig_filename
      = some (basename v)) ∧
    (c.path = some p → ∀ w : Option String,
      (set_path c w).orig_filename = c.orig_filename) ∧
    (c.path = some p → ∀ (cwd w : String) (c2 : FitsProvider),
      set_filename cwd c w = .ok c2 → c2.orig_filename = c.orig_filename) ∧
    (c.path = some p → ∀ vs : List String,
      (vs.foldl (fun st x => set_path st (some x)) c).orig_filename
        = c.orig_filename) := by
  refine ⟨?_, ?_, ?_, ?_⟩
  · intro hc
    unfold set_path
    rw [if_pos ⟨hc, Option.some_ne_none v⟩]
    rfl
  · intro hc w
    exact set_path_some_preserves c p hc w
  · intro hc cwd w c2 hset
    simp only [set_filename, hc] at hset
    by_cases habs : isAbsPath w = true
    · rw [if_pos habs] at hset
      cases hset
    · rw [if_neg habs] at hset
      cases hset
      exact set_path_some_preserves c p hc _
  · intro hc vs
    exact set_path_foldl_preserves vs c p hc

/-- C9 counterexample: assigning a path, then `None`, then another path
overwrites the stored original name — `orig_filename` ends as `d.fits`
although it was first captured as `b.fits`, contradicting the claim that no
later path assignment ever changes it. -/
theorem orig_filename_cex :
    (set_path provider0 (some "a/b.fits")).orig_filename = some "b.fits" ∧
    (set_path (set_path (set_path provider0 (some "a/b.fits")) none)
        (some "c/d.fits")).orig_filename = some "d.fits" ∧
    (set_path (set_path (set_path provider0 (some "a/b.fits")) none)
        (some "c/d.fits")).orig_filename ≠ some "b.fits" := by
  refine ⟨by decide, by decide, by decide⟩

/-- C9 witness: the amended theorem applied to the empty container (capture
at first assignment) and to an already-pathed container (preservation under
a further path assignment, a filename assignment, and a chain of path
assignments). -/
theorem orig_filename_spec_witness :
    (set_path provider0 (some "a/b.fits")).orig_filename
      = some (basename "a/b.fits") ∧
    (set_path (set_path provider0 (some "a/b.fits"))
        (some "x/y.fits")).orig_filename
      = (set_path provider0 (some "a/b.fits")).orig_filename ∧
    (["p.fits", "q.fits"].foldl (fun st x => set_path st (some x))
        (set_path provider0 (some "a/b.fits"))).orig_filename
      = (set_path provider0 (some "a/b.fits")).orig_filename := by
  have h1 := (orig_filename_spec provider0 "a/b.fits" "z").1 rfl
  have h2 := (orig_filename_spec (set_path provider0 (some "a/b.fits"))
    "z" "a/b.fits").2.1 rfl (some "x/y.fits")
  have h3 := (orig_filename_spec (set_path provider0 (some "a/b.fits"))
    "z" "a/b.fits").2.2.2 rfl ["p.fits", "q.fits"]
  exact ⟨h1, h2, h3⟩

end AstrodataFits
